import Mathlib

/-!
Verification of the statetrooper finite state machine library.

The Go source stores, for a comparable state type `T`:
  * `FSM[T]`: `currentState T`, `transitions []Transition[T]`, `ruleset map[T][]T`;
  * `Transition[T]`: `FromState`, `ToState`, `Timestamp *time.Time`, `Metadata map[string]string`;
  * `TransitionError[T]`: `FromState`, `ToState`.

We embed the package shallowly: the Go map `map[T][]T` becomes an
association list with Go-map semantics (a key occurs at most once for
machines built by the public API; lookup distinguishes a missing key from a
key bound to an empty list, exactly as the `validTransitions, ok :=
fsm.ruleset[fromState]` check does), slices become lists, `time.Now()`
becomes an explicit `now : Nat` argument captured at commit time, and
metadata maps become association lists of strings.  The mutex only
serialises access and has no sequential behaviour, so it is not modelled.
-/

namespace Statetrooper

/-- Metadata attached to a transition: Go's `map[string]string`. -/
abbrev Metadata := List (String × String)

/-- The `Transition[T]` record from src/statetrooper.go: fromState, toState,
commit timestamp and metadata. -/
structure TransitionRec (T : Type) where
  fromState : T
  toState : T
  timestamp : Nat
  metadata : Metadata
  deriving Repr, DecidableEq

/-- The `TransitionError[T]` type from the error source file: the invalid pair. -/
structure TransitionError (T : Type) where
  FromState : T
  ToState : T
  deriving Repr, DecidableEq

/-- The `FSM[T]` struct from src/statetrooper.go: current state, transition history
and the rule set `map[T][]T` (embedded as an association list). -/
structure FSM (T : Type) where
  currentState : T
  transitions : List (TransitionRec T)
  ruleset : List (T × List T)
  deriving Repr, DecidableEq

variable {T : Type} [DecidableEq T]

/-- Go map read `fsm.ruleset[k]` with its `ok` flag: first binding of `k`,
`none` when the key is absent. -/
def lookupRules (rs : List (T × List T)) (k : T) : Option (List T) :=
  match rs with
  | [] => none
  | (k', v) :: rest => if k' = k then some v else lookupRules rest k

/-- Go map write `fsm.ruleset[k] = v`: replace the binding in place, or
append a new binding when the key is absent. -/
def setRule (rs : List (T × List T)) (k : T) (v : List T) : List (T × List T) :=
  match rs with
  | [] => [(k, v)]
  | (k', v') :: rest => if k' = k then (k, v) :: rest else (k', v') :: setRule rest k v

/-- The membership loop of `canTransition`: scan the valid-transition slice
front to back for the target state. -/
def elemState (b : T) : List T → Bool
  | [] => false
  | x :: xs => if x = b then true else elemState b xs

/-- Function `canTransition(fromState, toState)` from src/statetrooper.go: `false`
when `fromState` has no entry in the rule set, otherwise a linear scan of
its list of valid targets. -/
def canTransition (rs : List (T × List T)) (fromState toState : T) : Bool :=
  match lookupRules rs fromState with
  | none => false
  | some validTransitions => elemState toState validTransitions

/-- Constructor `NewFSM(initialState)` from src/statetrooper.go: initial state, empty
rule set, no history. -/
def NewFSM (initialState : T) : FSM T :=
  { currentState := initialState, transitions := [], ruleset := [] }

/-- Method `CanTransition(targetState)`: delegate to `canTransition` from the
current state. -/
def FSM.CanTransition (fsm : FSM T) (targetState : T) : Bool :=
  canTransition fsm.ruleset fsm.currentState targetState

/-- Method `AddRule(fromState, toState...)` from src/statetrooper.go:
`fsm.ruleset[fromState] = append(fsm.ruleset[fromState], toState...)`
(a missing key reads as the empty slice). -/
def FSM.AddRule (fsm : FSM T) (fromState : T) (toState : List T) : FSM T :=
  { fsm with
    ruleset := setRule fsm.ruleset fromState
      ((lookupRules fsm.ruleset fromState).getD [] ++ toState) }

/-- Method `Transition(targetState, metadata)` from src/statetrooper.go.  `now` is
the value `time.Now()` returns at commit time.  The triple is the updated
machine together with Go's `(T, error)` return value. -/
def FSM.Transition (fsm : FSM T) (targetState : T) (metadata : Metadata) (now : Nat) :
    FSM T × T × Option (TransitionError T) :=
  if canTransition fsm.ruleset fsm.currentState targetState then
    ({ fsm with
        transitions := fsm.transitions ++
          [{ fromState := fsm.currentState, toState := targetState,
             timestamp := now, metadata := metadata }],
        currentState := targetState },
      targetState, none)
  else
    (fsm, fsm.currentState, some { FromState := fsm.currentState, ToState := targetState })

/-- Method `Transitions()` from src/statetrooper.go returns a copy of the history
slice; its contents are the internal list. -/
def FSM.Transitions (fsm : FSM T) : List (TransitionRec T) :=
  fsm.transitions

/-- Method `CurrentState()` from src/statetrooper.go. -/
def FSM.CurrentState (fsm : FSM T) : T :=
  fsm.currentState

/-- One client call against the FSM public API. -/
inductive Op (T : Type) where
  | addRule (fromState : T) (toStates : List T)
  | transition (targetState : T) (metadata : Metadata) (now : Nat)
  | canTransitionQ (targetState : T)
  | currentStateQ
  | transitionsQ

/-- Effect of one API call on the machine (query calls do not change it). -/
def runOp (fsm : FSM T) : Op T → FSM T
  | .addRule f ts => fsm.AddRule f ts
  | .transition t m n => (fsm.Transition t m n).1
  | .canTransitionQ _ => fsm
  | .currentStateQ => fsm
  | .transitionsQ => fsm

/-- Run a sequence of API calls left to right. -/
def run : List (Op T) → FSM T → FSM T
  | [], fsm => fsm
  | op :: ops, fsm => run ops (runOp fsm op)

/-- Predicate `registeredIn ops a b` holds when some `AddRule(a, …, b, …)` call
occurs in `ops`. -/
def registeredIn (ops : List (Op T)) (a b : T) : Bool :=
  ops.any fun op =>
    match op with
    | .addRule f ts => decide (f = a) && elemState b ts
    | _ => false

/-- The suffix of the `n` most recent entries of a chronological list. -/
def lastN (n : Nat) (l : List α) : List α :=
  l.drop (l.length - n)

/-- The bounded-history machine: the `FSM` fields plus the fixed history
capacity set at construction. -/
structure FSMc (T : Type) where
  currentState : T
  transitions : List (TransitionRec T)
  ruleset : List (T × List T)
  capacity : Nat
  deriving Repr, DecidableEq

/-- Modelled from the spec: the bounded-history constructor
`construct(initialState, capacity)` (the README's two-argument `NewFSM`)
is not under src/, which holds only the unbounded one-argument `NewFSM`;
spec §4.2 defines it, with capacity immutable after construction. -/
def NewFSMBounded (initialState : T) (capacity : Nat) : FSMc T :=
  { currentState := initialState, transitions := [], ruleset := [], capacity := capacity }

/-- Modelled from the spec: the bounded append of the commit step —
"appends it to TransitionLog (evicting the oldest entry first if at
capacity — no-op if capacity is 0)" (spec §4.2); this eviction code is not
under src/. -/
def pushBounded (cap : Nat) (log : List α) (r : α) : List α :=
  if cap = 0 then log
  else (if cap ≤ log.length then log.drop 1 else log) ++ [r]

/-- Method `AddRule` on the bounded machine (same rule-set update as in
src/statetrooper.go). -/
def FSMc.AddRule (fsm : FSMc T) (fromState : T) (toState : List T) : FSMc T :=
  { fsm with
    ruleset := setRule fsm.ruleset fromState
      ((lookupRules fsm.ruleset fromState).getD [] ++ toState) }

/-- Modelled from the spec: `transition` on the bounded machine — the
validation and commit of src/statetrooper.go's `Transition` with the
bounded append of spec §4.2 in place of the unbounded one. -/
def FSMc.Transition (fsm : FSMc T) (targetState : T) (metadata : Metadata) (now : Nat) :
    FSMc T × T × Option (TransitionError T) :=
  if canTransition fsm.ruleset fsm.currentState targetState then
    ({ fsm with
        transitions := pushBounded fsm.capacity fsm.transitions
          { fromState := fsm.currentState, toState := targetState,
            timestamp := now, metadata := metadata },
        currentState := targetState },
      targetState, none)
  else
    (fsm, fsm.currentState, some { FromState := fsm.currentState, ToState := targetState })

/-- Effect of one API call on the bounded machine. -/
def runOpB (fsm : FSMc T) : Op T → FSMc T
  | .addRule f ts => fsm.AddRule f ts
  | .transition t m n => (fsm.Transition t m n).1
  | .canTransitionQ _ => fsm
  | .currentStateQ => fsm
  | .transitionsQ => fsm

/-- The records a single call commits: one record when it is an allowed
transition, none otherwise. -/
def commitRec (fsm : FSMc T) : Op T → List (TransitionRec T)
  | .transition t m n =>
      if canTransition fsm.ruleset fsm.currentState t then
        [{ fromState := fsm.currentState, toState := t, timestamp := n, metadata := m }]
      else []
  | _ => []

/-- Run a call sequence on the bounded machine while accumulating the full
(unbounded) chronological list of committed records. -/
def runAccB : List (Op T) → FSMc T × List (TransitionRec T) → FSMc T × List (TransitionRec T)
  | [], p => p
  | op :: ops, (fsm, log) => runAccB ops (runOpB fsm op, log ++ commitRec fsm op)

/-- The document shape `MarshalJSON` of src/statetrooper.go exports:
`{current_state, transitions}` — the rule set is never serialized. -/
structure FSMDoc (T : Type) where
  current_state : T
  transitions : List (TransitionRec T)
  deriving Repr, DecidableEq

/-- Method `MarshalJSON` from src/statetrooper.go: export exactly the current
state and the transitions slice, oldest first. -/
def FSMc.MarshalExport (fsm : FSMc T) : FSMDoc T :=
  { current_state := fsm.currentState, transitions := fsm.transitions }

/-- Modelled from the spec: decode (`UnmarshalJSON`) is not under src/
(only its test and an example caller are); spec §4.3: it replaces the
current state and the entire history wholesale, retains only the most
recent `capacity` entries when the incoming count exceeds the capacity,
and never reads rules from the document. -/
def deserializeDoc (doc : FSMDoc T) (cap : Nat) : FSMc T :=
  { currentState := doc.current_state, transitions := lastN cap doc.transitions,
    ruleset := [], capacity := cap }

/-- Concatenation of a list of line fragments into one output string. -/
def strConcat : List String → String
  | [] => ""
  | s :: rest => s ++ strConcat rest

/-- Errors of the diagram renderer (spec §7): missing display capability,
or nothing to render. -/
inductive DiagramError where
  | unsupportedDisplayType
  | emptyRuleSet
  deriving Repr, DecidableEq

/-- Modelled from the spec: `GenerateMermaidRulesDiagram` is not under
src/ (only its display-capability helpers `stringable` / `toString` in
src/utils.go and example callers are).  Spec §4.4 and §6 define it: a
capability error when the state type offers no display conversion, an
error on an empty rule set, and otherwise a `graph LR;` header, one node
line per from-state key of the rule set, then one edge line per
(from, to) pair in rule-set iteration order, duplicates included.  `disp`
is `some` exactly when the `stringable` check of src/utils.go passes. -/
def renderRulesDiagram (disp : Option (T → String)) (rs : List (T × List T)) :
    Except DiagramError String :=
  match disp with
  | none => Except.error DiagramError.unsupportedDisplayType
  | some toStr =>
    if rs.isEmpty then Except.error DiagramError.emptyRuleSet
    else
      Except.ok
        (rs.foldl
          (fun acc p =>
            p.2.foldl (fun acc2 t => acc2 ++ (toStr p.1 ++ " --> " ++ toStr t ++ ";\n")) acc)
          (rs.foldl (fun acc p => acc ++ (toStr p.1 ++ ";\n")) "graph LR;\n"))

/-- The diagram scenario rule set of the spec: created → picked and
created → canceled, in registration order. -/
def diagramScenario : List (String × List String) :=
  [("created", ["picked", "canceled"])]

/-- A transition record under the aliasing model: the `Timestamp` pointer
and the `Metadata` map are references into the store. -/
structure HRec (T : Type) where
  fromState : T
  toState : T
  timeRef : Nat
  mdRef : Option Nat
  deriving Repr, DecidableEq

/-- Pointwise update of a store. -/
def updf {α : Type} (f : Nat → α) (i : Nat) (v : α) : Nat → α :=
  fun j => if j = i then v else f j

/-- Go map write `md[k] = v` on a metadata map. -/
def setMeta (md : Metadata) (k v : String) : Metadata :=
  match md with
  | [] => [(k, v)]
  | (k', v') :: rest => if k' = k then (k, v) :: rest else (k', v') :: setMeta rest k v

/-- The machine together with the stores the aliasing claims are about:
backing arrays for history slices, metadata map objects and `time.Time`
cells, each addressed by reference. -/
structure HWorld (T : Type) where
  currentState : T
  transArr : Nat
  ruleset : List (T × List T)
  arrs : Nat → List (HRec T)
  nextArr : Nat
  maps : Nat → Metadata
  times : Nat → Nat
  nextTime : Nat

/-- Method `Transitions()` under the aliasing model, from src/statetrooper.go:
allocate a fresh backing array, copy the record values into it (a shallow
copy — each record keeps its `timeRef` and `mdRef`), and return its
reference. -/
def hTransitions (w : HWorld T) : Nat × HWorld T :=
  (w.nextArr,
   { w with arrs := updf w.arrs w.nextArr (w.arrs w.transArr), nextArr := w.nextArr + 1 })

/-- The successful-commit effect of `Transition` under the aliasing
model: allocate the commit-time `time.Time` cell, append a record that
holds the caller's metadata reference itself (no copy is made), and
update the current state. -/
def commitW (w : HWorld T) (targetState : T) (mdRef : Option Nat) (now : Nat) : HWorld T :=
  { w with
    arrs := updf w.arrs w.transArr (w.arrs w.transArr ++
      [{ fromState := w.currentState, toState := targetState,
         timeRef := w.nextTime, mdRef := mdRef }]),
    times := updf w.times w.nextTime now,
    nextTime := w.nextTime + 1,
    currentState := targetState }

/-- Method `Transition` under the aliasing model, from src/statetrooper.go:
validate, then commit. -/
def hTransition (w : HWorld T) (targetState : T) (mdRef : Option Nat) (now : Nat) :
    HWorld T × T × Option (TransitionError T) :=
  if canTransition w.ruleset w.currentState targetState then
    (commitW w targetState mdRef now, targetState, none)
  else
    (w, w.currentState, some { FromState := w.currentState, ToState := targetState })

/-- A caller assigning a record value into slot `i` of a slice it holds a
reference to (covers overwriting a whole record or any of its fields). -/
def hWriteArr (w : HWorld T) (a i : Nat) (v : HRec T) : HWorld T :=
  { w with arrs := updf w.arrs a ((w.arrs a).set i v) }

/-- A caller writing key `k` of a metadata map object it shares with the
machine. -/
def hMapWrite (w : HWorld T) (m : Nat) (k v : String) : HWorld T :=
  { w with maps := updf w.maps m (setMeta (w.maps m) k v) }

/-- Reading a record's metadata through the store (`nil` map reads as
empty). -/
def readMd (w : HWorld T) (r : HRec T) : Metadata :=
  match r.mdRef with
  | none => []
  | some m => w.maps m

/-- Allocation sanity of a world: the internal backing array was allocated
before the next-free reference. -/
def HWF (w : HWorld T) : Prop :=
  w.transArr < w.nextArr

/-- A concrete world with rule 0 → 1, used as witness input. -/
def hWorldExample : HWorld Nat :=
  { currentState := 0, transArr := 0, ruleset := [(0, [1])],
    arrs := fun _ => [], nextArr := 1, maps := fun _ => [],
    times := fun _ => 0, nextTime := 0 }

/-- A concrete two-record bounded machine with a nonempty rule set, used
as a round-trip example. -/
def fsmcExample : FSMc Nat :=
  { currentState := 2,
    transitions := [{ fromState := 0, toState := 1, timestamp := 1, metadata := [] },
                    { fromState := 1, toState := 2, timestamp := 2, metadata := [] }],
    ruleset := [(0, [1]), (1, [2])],
    capacity := 5 }

end Statetrooper

namespace Statetrooper

variable {T : Type} [DecidableEq T]

/-- C1: a disallowed transition leaves the machine untouched and returns
the unchanged current state with an `InvalidTransition` error carrying
the current state and the target. -/
theorem transition_invalid (fsm : FSM T) (targetState : T) (metadata : Metadata) (now : Nat)
    (h : canTransition fsm.ruleset fsm.currentState targetState = false) :
    fsm.Transition targetState metadata now =
      (fsm, fsm.currentState,
        some { FromState := fsm.currentState, ToState := targetState }) := by
  unfold FSM.Transition
  rw [h]
  simp

/-- Witness for `transition_invalid`: from state `0` with an empty rule set
the transition to `1` is rejected and nothing changes. -/
theorem transition_invalid_witness :
    canTransition (NewFSM (0 : Nat)).ruleset (NewFSM (0 : Nat)).currentState 1 = false ∧
      (NewFSM (0 : Nat)).Transition 1 [] 5 =
        (NewFSM (0 : Nat), 0, some { FromState := 0, ToState := 1 }) :=
  ⟨by decide, transition_invalid (NewFSM 0) 1 [] 5 (by decide)⟩

/-- C2: an allowed transition commits: the current state becomes the
target, the returned pair is the target with no error, and exactly one
record is appended at the end of the history, holding the previous current
state, the target, the commit-time timestamp and the given metadata. -/
theorem transition_valid (fsm : FSM T) (targetState : T) (metadata : Metadata) (now : Nat)
    (h : canTransition fsm.ruleset fsm.currentState targetState = true) :
    fsm.Transition targetState metadata now =
      ({ fsm with
          transitions := fsm.transitions ++
            [{ fromState := fsm.currentState, toState := targetState,
               timestamp := now, metadata := metadata }],
          currentState := targetState },
        targetState, none) := by
  unfold FSM.Transition
  rw [h]
  simp

/-- Witness for `transition_valid`: with rule `0 → 1`, the transition to
`1` commits and appends exactly the expected record. -/
theorem transition_valid_witness :
    canTransition ((NewFSM (0 : Nat)).AddRule 0 [1]).ruleset
        ((NewFSM (0 : Nat)).AddRule 0 [1]).currentState 1 = true ∧
      ((NewFSM (0 : Nat)).AddRule 0 [1]).Transition 1 [("k", "v")] 7 =
        ({ currentState := 1,
           transitions := [{ fromState := 0, toState := 1, timestamp := 7,
                             metadata := [("k", "v")] }],
           ruleset := [(0, [1])] },
          1, none) :=
  ⟨by decide, by
    have h := transition_valid ((NewFSM (0 : Nat)).AddRule 0 [1]) 1 [("k", "v")] 7 (by decide)
    simpa using h⟩

theorem lookupRules_setRule (rs : List (T × List T)) (k : T) (v : List T) (a : T) :
    lookupRules (setRule rs k v) a = if a = k then some v else lookupRules rs a := by
  induction rs with
  | nil =>
    simp only [setRule, lookupRules]
    by_cases hka : k = a
    · subst hka; simp
    · rw [if_neg hka, if_neg (fun h => hka h.symm)]
  | cons p rest ih =>
    obtain ⟨k', v'⟩ := p
    simp only [setRule]
    by_cases hk : k' = k
    · subst hk
      simp only [if_pos rfl, lookupRules]
      by_cases hka : k' = a
      · subst hka; simp
      · rw [if_neg hka, if_neg (fun h => hka h.symm), if_neg hka]
    · rw [if_neg hk]
      simp only [lookupRules]
      by_cases hka : k' = a
      · subst hka
        rw [if_pos rfl, if_neg (fun h => hk h), if_pos rfl]
      · rw [if_neg hka, if_neg hka, ih]

theorem elemState_append (b : T) (l₁ l₂ : List T) :
    elemState b (l₁ ++ l₂) = (elemState b l₁ || elemState b l₂) := by
  induction l₁ with
  | nil => simp [elemState]
  | cons x xs ih =>
    by_cases hx : x = b <;> simp [elemState, hx, ih]

theorem canTransition_AddRule (fsm : FSM T) (f : T) (ts : List T) (a b : T) :
    canTransition (fsm.AddRule f ts).ruleset a b =
      ((decide (f = a) && elemState b ts) || canTransition fsm.ruleset a b) := by
  unfold FSM.AddRule canTransition
  simp only [lookupRules_setRule]
  by_cases haf : a = f
  · subst haf
    cases hl : lookupRules fsm.ruleset a <;>
      simp [hl, elemState_append, elemState, Bool.or_comm]
  · have : ¬(f = a) := fun h => haf h.symm
    simp [haf, this]

theorem Transition_ruleset (fsm : FSM T) (t : T) (m : Metadata) (n : Nat) :
    (fsm.Transition t m n).1.ruleset = fsm.ruleset := by
  unfold FSM.Transition
  split <;> rfl

theorem registeredIn_cons_addRule (f : T) (ts : List T) (ops : List (Op T)) (a b : T) :
    registeredIn (Op.addRule f ts :: ops) a b =
      ((decide (f = a) && elemState b ts) || registeredIn ops a b) := by
  simp [registeredIn]

theorem registeredIn_cons_transition (t : T) (m : Metadata) (n : Nat)
    (ops : List (Op T)) (a b : T) :
    registeredIn (Op.transition t m n :: ops) a b = registeredIn ops a b := by
  simp [registeredIn]

theorem registeredIn_cons_canTransitionQ (t : T) (ops : List (Op T)) (a b : T) :
    registeredIn (Op.canTransitionQ t :: ops) a b = registeredIn ops a b := by
  simp [registeredIn]

theorem registeredIn_cons_currentStateQ (ops : List (Op T)) (a b : T) :
    registeredIn (Op.currentStateQ :: ops) a b = registeredIn ops a b := by
  simp [registeredIn]

theorem registeredIn_cons_transitionsQ (ops : List (Op T)) (a b : T) :
    registeredIn (Op.transitionsQ :: ops) a b = registeredIn ops a b := by
  simp [registeredIn]

theorem canTransition_run (ops : List (Op T)) (fsm : FSM T) (a b : T) :
    canTransition (run ops fsm).ruleset a b =
      (registeredIn ops a b || canTransition fsm.ruleset a b) := by
  induction ops generalizing fsm with
  | nil => simp [run, registeredIn]
  | cons op ops ih =>
    cases op with
    | addRule f ts =>
      rw [registeredIn_cons_addRule]
      simp only [run, runOp]
      rw [ih, canTransition_AddRule]
      cases registeredIn ops a b <;> cases (decide (f = a) && elemState b ts) <;>
        cases canTransition fsm.ruleset a b <;> simp
    | transition t m n =>
      rw [registeredIn_cons_transition]
      simp only [run, runOp]
      rw [ih, Transition_ruleset]
    | canTransitionQ t =>
      rw [registeredIn_cons_canTransitionQ]
      simp only [run, runOp]
      rw [ih]
    | currentStateQ =>
      rw [registeredIn_cons_currentStateQ]
      simp only [run, runOp]
      rw [ih]
    | transitionsQ =>
      rw [registeredIn_cons_transitionsQ]
      simp only [run, runOp]
      rw [ih]

/-- C3: on any machine reached from `NewFSM` by a sequence of API calls,
`CanTransition(B)` is true exactly when `B` occurs in a to-state list
registered for the current state by some `AddRule` call; additionally, on
any machine, a from-state with no ruleset entry admits no transition, and
the `CanTransition` query does not change the machine. -/
theorem canTransition_characterization (init : T) (ops : List (Op T)) (b : T) :
    ((run ops (NewFSM init)).CanTransition b =
      registeredIn ops (run ops (NewFSM init)).currentState b) ∧
    (∀ (g : FSM T) (a c : T), lookupRules g.ruleset a = none →
      canTransition g.ruleset a c = false) ∧
    (∀ (g : FSM T), runOp g (Op.canTransitionQ b) = g) := by
  refine ⟨?_, ?_, fun g => rfl⟩
  · unfold FSM.CanTransition
    rw [canTransition_run]
    simp [NewFSM, canTransition, lookupRules]
  · intro g a c h
    simp [canTransition, h]

/-- Witness for `canTransition_characterization`: after `AddRule(0,[1,2])`
and a committed transition to `1`, `CanTransition 2` is false yet `2` is
registered only for state `0`, matching the registration check; a state
with no entry admits nothing. -/
theorem canTransition_characterization_witness :
    ((run [Op.addRule 0 [1, 2], Op.transition 1 [] 4] (NewFSM (0 : Nat))).CanTransition 2 =
      registeredIn [Op.addRule 0 [1, 2], Op.transition 1 [] 4]
        (run [Op.addRule 0 [1, 2], Op.transition 1 [] 4] (NewFSM (0 : Nat))).currentState 2) ∧
    lookupRules (NewFSM (3 : Nat)).ruleset 9 = none ∧
    canTransition (NewFSM (3 : Nat)).ruleset 9 5 = false := by
  have h := canTransition_characterization (0 : Nat) [Op.addRule 0 [1, 2], Op.transition 1 [] 4] 2
  exact ⟨h.1, by decide, h.2.1 (NewFSM 3) 9 5 (by decide)⟩

/-- The C5 state invariant: the machine is either untouched since
construction or its current state is the target of the last history
record. -/
def stateInv (init : T) (fsm : FSM T) : Prop :=
  (fsm.transitions = [] ∧ fsm.currentState = init) ∨
    ∃ rest r, fsm.transitions = rest ++ [r] ∧ fsm.currentState = r.toState

theorem stateInv_runOp (init : T) (fsm : FSM T) (op : Op T) (h : stateInv init fsm) :
    stateInv init (runOp fsm op) := by
  cases op with
  | addRule f ts =>
    cases h with
    | inl h => exact Or.inl ⟨h.1, h.2⟩
    | inr h => exact Or.inr h
  | transition t m n =>
    simp only [runOp, FSM.Transition]
    split
    · exact Or.inr ⟨fsm.transitions, _, rfl, rfl⟩
    · exact h
  | canTransitionQ t => exact h
  | currentStateQ => exact h
  | transitionsQ => exact h

theorem stateInv_run (init : T) (ops : List (Op T)) (fsm : FSM T) (h : stateInv init fsm) :
    stateInv init (run ops fsm) := by
  induction ops generalizing fsm with
  | nil => exact h
  | cons op ops ih => exact ih _ (stateInv_runOp init fsm op h)

/-- C5: after any sequence of API calls from construction, the current
state equals the initial state (history still empty) or the to-state of
the most recently committed transition (the last history record). -/
theorem currentState_last_transition (init : T) (ops : List (Op T)) :
    ((run ops (NewFSM init)).transitions = [] ∧
      (run ops (NewFSM init)).currentState = init) ∨
    ∃ rest r, (run ops (NewFSM init)).transitions = rest ++ [r] ∧
      (run ops (NewFSM init)).currentState = r.toState :=
  stateInv_run init ops (NewFSM init) (Or.inl ⟨rfl, rfl⟩)

/-- C9: `AddRule(f, ts)` appends `ts` to `f`'s existing list (keeping
duplicates), leaves every other key's list alone, keeps every previously
allowed pair allowed, and does not touch the current state or the
history. -/
theorem AddRule_accumulates (fsm : FSM T) (f : T) (ts : List T) :
    lookupRules (fsm.AddRule f ts).ruleset f =
      some ((lookupRules fsm.ruleset f).getD [] ++ ts) ∧
    (∀ a, a ≠ f → lookupRules (fsm.AddRule f ts).ruleset a = lookupRules fsm.ruleset a) ∧
    (∀ a b, canTransition fsm.ruleset a b = true →
      canTransition (fsm.AddRule f ts).ruleset a b = true) ∧
    (fsm.AddRule f ts).currentState = fsm.currentState ∧
    (fsm.AddRule f ts).transitions = fsm.transitions := by
  refine ⟨?_, ?_, ?_, rfl, rfl⟩
  · unfold FSM.AddRule
    simp [lookupRules_setRule]
  · intro a ha
    unfold FSM.AddRule
    simp [lookupRules_setRule, ha]
  · intro a b h
    rw [canTransition_AddRule, h]
    simp

/-- Witness for `AddRule_accumulates`: adding `0 → [1]` twice yields the
duplicated list `[1, 1]`, leaves key `5` absent, and keeps `0 → 1`
allowed. -/
theorem AddRule_accumulates_witness :
    lookupRules (((NewFSM (0 : Nat)).AddRule 0 [1]).AddRule 0 [1]).ruleset 0 =
      some ((lookupRules ((NewFSM (0 : Nat)).AddRule 0 [1]).ruleset 0).getD [] ++ [1]) ∧
    (5 : Nat) ≠ 0 ∧
    lookupRules (((NewFSM (0 : Nat)).AddRule 0 [1]).AddRule 0 [1]).ruleset 5 =
      lookupRules ((NewFSM (0 : Nat)).AddRule 0 [1]).ruleset 5 ∧
    canTransition ((NewFSM (0 : Nat)).AddRule 0 [1]).ruleset 0 1 = true ∧
    canTransition (((NewFSM (0 : Nat)).AddRule 0 [1]).AddRule 0 [1]).ruleset 0 1 = true := by
  have h := AddRule_accumulates ((NewFSM (0 : Nat)).AddRule 0 [1]) 0 [1]
  exact ⟨h.1, by decide, h.2.1 5 (by decide), by decide, h.2.2.1 0 1 (by decide)⟩

theorem lastN_length {α : Type} (n : Nat) (l : List α) :
    (lastN n l).length = min l.length n := by
  simp only [lastN, List.length_drop]
  omega

theorem lastN_of_le_length {α : Type} (n : Nat) (l : List α) (h : l.length ≤ n) :
    lastN n l = l := by
  unfold lastN
  have : l.length - n = 0 := by omega
  rw [this, List.drop_zero]

theorem pushBounded_lastN {α : Type} (cap : Nat) (l : List α) (r : α) :
    pushBounded cap (lastN cap l) r = lastN cap (l ++ [r]) := by
  by_cases hc : cap = 0
  · subst hc
    simp [pushBounded, lastN]
  · rw [pushBounded, if_neg hc]
    by_cases hl : cap ≤ l.length
    · have hlen : (lastN cap l).length = cap := by rw [lastN_length]; omega
      rw [if_pos (le_of_eq hlen.symm)]
      show (l.drop (l.length - cap)).drop 1 ++ [r] = lastN cap (l ++ [r])
      rw [List.drop_drop]
      unfold lastN
      have hlen2 : (l ++ [r]).length = l.length + 1 := by simp
      rw [hlen2]
      have hle : l.length + 1 - cap ≤ l.length := by omega
      rw [List.drop_append_of_le_length hle]
      have : l.length - cap + 1 = l.length + 1 - cap := by omega
      rw [this]
    · have hll : lastN cap l = l := lastN_of_le_length cap l (by omega)
      rw [hll, if_neg (by omega)]
      unfold lastN
      have hlen2 : (l ++ [r]).length = l.length + 1 := by simp
      rw [hlen2]
      have : l.length + 1 - cap = 0 := by omega
      rw [this, List.drop_zero]

theorem runOpB_capacity (fsm : FSMc T) (op : Op T) :
    (runOpB fsm op).capacity = fsm.capacity := by
  cases op with
  | addRule f ts => rfl
  | transition t m n =>
    simp only [runOpB, FSMc.Transition]
    split <;> rfl
  | canTransitionQ t => rfl
  | currentStateQ => rfl
  | transitionsQ => rfl

theorem boundedInv_step (fsm : FSMc T) (log : List (TransitionRec T)) (op : Op T)
    (h : fsm.transitions = lastN fsm.capacity log) :
    (runOpB fsm op).transitions = lastN fsm.capacity (log ++ commitRec fsm op) := by
  cases op with
  | addRule f ts => simpa [runOpB, FSMc.AddRule, commitRec] using h
  | transition t m n =>
    simp only [runOpB, FSMc.Transition, commitRec]
    by_cases hcan : canTransition fsm.ruleset fsm.currentState t = true
    · rw [if_pos hcan, if_pos hcan]
      show pushBounded fsm.capacity fsm.transitions _ = _
      rw [h, pushBounded_lastN]
    · rw [if_neg hcan, if_neg hcan]
      simpa using h
  | canTransitionQ t => simpa [runOpB, commitRec] using h
  | currentStateQ => simpa [runOpB, commitRec] using h
  | transitionsQ => simpa [runOpB, commitRec] using h

theorem runAccB_inv (ops : List (Op T)) (fsm : FSMc T) (log : List (TransitionRec T))
    (h : fsm.transitions = lastN fsm.capacity log) :
    (runAccB ops (fsm, log)).1.capacity = fsm.capacity ∧
      (runAccB ops (fsm, log)).1.transitions =
        lastN fsm.capacity (runAccB ops (fsm, log)).2 := by
  induction ops generalizing fsm log with
  | nil => exact ⟨rfl, h⟩
  | cons op ops ih =>
    have hstep := boundedInv_step fsm log op h
    have hcap := runOpB_capacity fsm op
    have := ih (runOpB fsm op) (log ++ commitRec fsm op) (by rw [hcap]; exact hstep)
    simpa [runAccB, hcap] using this

/-- C4: running any call sequence on a machine constructed with capacity
`C` keeps the retained history equal to the `C` most recent committed
records in chronological order (FIFO eviction), so its length is
`min N C` after `N` successful transitions and never exceeds `C`. -/
theorem bounded_history (init : T) (cap : Nat) (ops : List (Op T)) :
    (runAccB ops (NewFSMBounded init cap, [])).1.capacity = cap ∧
    (runAccB ops (NewFSMBounded init cap, [])).1.transitions =
      lastN cap (runAccB ops (NewFSMBounded init cap, [])).2 ∧
    (runAccB ops (NewFSMBounded init cap, [])).1.transitions.length =
      min (runAccB ops (NewFSMBounded init cap, [])).2.length cap ∧
    (runAccB ops (NewFSMBounded init cap, [])).1.transitions.length ≤ cap := by
  have h := runAccB_inv ops (NewFSMBounded init cap) [] (by simp [NewFSMBounded, lastN])
  have hc : (NewFSMBounded init cap).capacity = cap := rfl
  rw [hc] at h
  refine ⟨h.1, h.2, ?_, ?_⟩
  · rw [h.2, lastN_length]
  · rw [h.2, lastN_length]
    omega

omit [DecidableEq T] in
/-- C6: serializing a machine and decoding the document yields the same
current state and the same transition sequence — truncated to the most
recent `cap` records when the original is longer, unchanged otherwise —
while the rule set is never carried across (the decoded machine has an
empty rule set no matter what the original's was). -/
theorem serialize_round_trip (fsm : FSMc T) (cap : Nat) :
    (deserializeDoc fsm.MarshalExport cap).currentState = fsm.currentState ∧
    (deserializeDoc fsm.MarshalExport cap).transitions = lastN cap fsm.transitions ∧
    (fsm.transitions.length ≤ cap →
      (deserializeDoc fsm.MarshalExport cap).transitions = fsm.transitions) ∧
    (deserializeDoc fsm.MarshalExport cap).ruleset = [] := by
  refine ⟨rfl, rfl, ?_, rfl⟩
  intro h
  show lastN cap fsm.transitions = fsm.transitions
  exact lastN_of_le_length cap fsm.transitions h

/-- Witness for `serialize_round_trip`: a concrete two-record machine with
a nonempty rule set round-trips at capacity 5 to the same state and
history but an empty rule set. -/
theorem serialize_round_trip_witness :
    fsmcExample.transitions.length ≤ 5 ∧
    (deserializeDoc fsmcExample.MarshalExport 5).transitions = fsmcExample.transitions :=
  ⟨by decide, (serialize_round_trip fsmcExample 5).2.2.1 (by decide)⟩

theorem foldl_append_eq_strConcat {α : Type} (g : α → String) (l : List α) (s : String) :
    l.foldl (fun acc x => acc ++ g x) s = s ++ strConcat (l.map g) := by
  induction l generalizing s with
  | nil => simp [strConcat]
  | cons x xs ih => simp [strConcat, ih, String.append_assoc]

omit [DecidableEq T] in
theorem foldl_nested_eq_strConcat (g : (T × List T) → T → String)
    (rs : List (T × List T)) (s : String) :
    rs.foldl (fun acc p => p.2.foldl (fun acc2 t => acc2 ++ g p t) acc) s =
      s ++ strConcat (rs.map fun p => strConcat (p.2.map (g p))) := by
  induction rs generalizing s with
  | nil => simp [strConcat]
  | cons p ps ih =>
    simp only [List.foldl_cons, List.map_cons]
    rw [ih, foldl_append_eq_strConcat (g p)]
    simp [strConcat, String.append_assoc]

omit [DecidableEq T] in
theorem foldl_nodes_render (toStr : T → String) (rs : List (T × List T)) (s : String) :
    rs.foldl (fun acc p => acc ++ (toStr p.1 ++ ";\n")) s =
      s ++ strConcat (rs.map fun p => toStr p.1 ++ ";\n") :=
  foldl_append_eq_strConcat (fun p => toStr p.1 ++ ";\n") rs s

omit [DecidableEq T] in
theorem foldl_edges_render (toStr : T → String) (rs : List (T × List T)) (s : String) :
    rs.foldl
      (fun acc p =>
        p.2.foldl (fun acc2 t => acc2 ++ (toStr p.1 ++ " --> " ++ toStr t ++ ";\n")) acc) s =
      s ++ strConcat (rs.map fun p =>
        strConcat (p.2.map fun t => toStr p.1 ++ " --> " ++ toStr t ++ ";\n")) :=
  foldl_nested_eq_strConcat (fun p t => toStr p.1 ++ " --> " ++ toStr t ++ ";\n") rs s

omit [DecidableEq T] in
/-- C8: on a displayable state type and a nonempty rule set the rules
diagram succeeds and consists of the `graph LR;` header, one node line
per from-state key of the rule set only, then one edge line per
(from, to) pair in rule-set order with duplicates included — states
appearing only as targets get no node line. -/
theorem renderRulesDiagram_shape (toStr : T → String) (rs : List (T × List T))
    (h : rs ≠ []) :
    renderRulesDiagram (some toStr) rs =
      Except.ok ("graph LR;\n" ++
        (strConcat (rs.map fun p => toStr p.1 ++ ";\n") ++
         strConcat (rs.map fun p =>
           strConcat (p.2.map fun t => toStr p.1 ++ " --> " ++ toStr t ++ ";\n")))) := by
  obtain ⟨q, qs, rfl⟩ := List.exists_cons_of_ne_nil h
  simp only [renderRulesDiagram, List.isEmpty_cons, Bool.false_eq_true, if_false]
  rw [foldl_edges_render, foldl_nodes_render, String.append_assoc]

/-- Witness for `renderRulesDiagram_shape`: the spec's scenario
{created → picked, created → canceled} declares a node line only for
`created`, then the two edges in registration order. -/
theorem renderRulesDiagram_shape_witness :
    diagramScenario ≠ [] ∧
    renderRulesDiagram (some id) diagramScenario =
      Except.ok "graph LR;\ncreated;\ncreated --> picked;\ncreated --> canceled;\n" := by
  refine ⟨by simp [diagramScenario], ?_⟩
  rw [renderRulesDiagram_shape id diagramScenario (by simp [diagramScenario])]
  rfl

theorem updf_same {α : Type} (f : Nat → α) (i : Nat) (v : α) : updf f i v i = v := by
  simp [updf]

theorem updf_other {α : Type} (f : Nat → α) (i : Nat) (v : α) (j : Nat) (h : j ≠ i) :
    updf f i v j = f j := by
  simp [updf, h]

omit [DecidableEq T] in
/-- C7: `Transitions()` hands back a freshly allocated copy with the same
contents; overwriting any slot of the returned slice with any record
value changes neither the machine's fields nor the internal history, and
a later `Transitions()` call still returns the original contents. -/
theorem transitions_independent (w : HWorld T) (h : HWF w) (i : Nat) (v : HRec T) :
    (hTransitions w).2.arrs (hTransitions w).1 = w.arrs w.transArr ∧
    (hWriteArr (hTransitions w).2 (hTransitions w).1 i v).currentState = w.currentState ∧
    (hWriteArr (hTransitions w).2 (hTransitions w).1 i v).transArr = w.transArr ∧
    (hWriteArr (hTransitions w).2 (hTransitions w).1 i v).ruleset = w.ruleset ∧
    (hWriteArr (hTransitions w).2 (hTransitions w).1 i v).arrs w.transArr =
      w.arrs w.transArr ∧
    (hTransitions (hWriteArr (hTransitions w).2 (hTransitions w).1 i v)).2.arrs
        (hTransitions (hWriteArr (hTransitions w).2 (hTransitions w).1 i v)).1 =
      w.arrs w.transArr := by
  have hne : w.transArr ≠ w.nextArr := Nat.ne_of_lt h
  refine ⟨updf_same .., rfl, rfl, rfl, ?_, ?_⟩
  · simp [hTransitions, hWriteArr, updf, hne]
  · simp [hTransitions, hWriteArr, updf, hne]

/-- Witness for `transitions_independent` at a concrete world: smashing
slot 0 of the returned slice does not touch the machine. -/
theorem transitions_independent_witness :
    HWF hWorldExample ∧
    ((hTransitions hWorldExample).2.arrs (hTransitions hWorldExample).1 =
        hWorldExample.arrs hWorldExample.transArr ∧
      (hWriteArr (hTransitions hWorldExample).2 (hTransitions hWorldExample).1 0
          { fromState := 5, toState := 6, timeRef := 0, mdRef := none }).currentState =
        hWorldExample.currentState ∧
      (hWriteArr (hTransitions hWorldExample).2 (hTransitions hWorldExample).1 0
          { fromState := 5, toState := 6, timeRef := 0, mdRef := none }).transArr =
        hWorldExample.transArr ∧
      (hWriteArr (hTransitions hWorldExample).2 (hTransitions hWorldExample).1 0
          { fromState := 5, toState := 6, timeRef := 0, mdRef := none }).ruleset =
        hWorldExample.ruleset ∧
      (hWriteArr (hTransitions hWorldExample).2 (hTransitions hWorldExample).1 0
          { fromState := 5, toState := 6, timeRef := 0, mdRef := none }).arrs
          hWorldExample.transArr =
        hWorldExample.arrs hWorldExample.transArr ∧
      (hTransitions (hWriteArr (hTransitions hWorldExample).2 (hTransitions hWorldExample).1 0
            { fromState := 5, toState := 6, timeRef := 0, mdRef := none })).2.arrs
          (hTransitions (hWriteArr (hTransitions hWorldExample).2
              (hTransitions hWorldExample).1 0
              { fromState := 5, toState := 6, timeRef := 0, mdRef := none })).1 =
        hWorldExample.arrs hWorldExample.transArr) :=
  ⟨Nat.zero_lt_one,
    transitions_independent hWorldExample Nat.zero_lt_one 0
      { fromState := 5, toState := 6, timeRef := 0, mdRef := none }⟩

/-- C10: a committed record stores the caller's metadata reference itself
(no copy); `Transitions()` copies only the outer slice, so the returned
record is the very same record value — same metadata map and timestamp
cell — and a later write to the caller's map is visible when the stored
history record's metadata is read back. -/
theorem metadata_not_copied (w : HWorld T) (target : T) (m now : Nat) (k v : String)
    (h : canTransition w.ruleset w.currentState target = true) :
    (hTransition w target (some m) now).2.2 = none ∧
    ∃ r, ((hTransition w target (some m) now).1.arrs
            (hTransition w target (some m) now).1.transArr).getLast? = some r ∧
      r.mdRef = some m ∧
      r.timeRef = w.nextTime ∧
      ((hTransitions (hTransition w target (some m) now).1).2.arrs
          (hTransitions (hTransition w target (some m) now).1).1).getLast? = some r ∧
      (hTransition w target (some m) now).1.maps m = w.maps m ∧
      readMd (hMapWrite (hTransition w target (some m) now).1 m k v) r =
        setMeta (w.maps m) k v := by
  have e : hTransition w target (some m) now = (commitW w target (some m) now, target, none) := by
    unfold hTransition
    rw [if_pos h]
  rw [e]
  refine ⟨rfl,
    ⟨{ fromState := w.currentState, toState := target, timeRef := w.nextTime,
       mdRef := some m }, ?_, rfl, rfl, ?_, rfl, ?_⟩⟩
  · simp [commitW, updf_same, List.getLast?_concat]
  · simp [hTransitions, commitW, updf_same, List.getLast?_concat]
  · simp [readMd, hMapWrite, commitW, updf_same]

/-- Witness for `metadata_not_copied`: a concrete committed transition at
the example world with metadata map 3, then a write of "carrier" into
that map. -/
theorem metadata_not_copied_witness :
    canTransition hWorldExample.ruleset hWorldExample.currentState 1 = true ∧
    ((hTransition hWorldExample 1 (some 3) 9).2.2 = none ∧
      ∃ r, ((hTransition hWorldExample 1 (some 3) 9).1.arrs
              (hTransition hWorldExample 1 (some 3) 9).1.transArr).getLast? = some r ∧
        r.mdRef = some 3 ∧
        r.timeRef = hWorldExample.nextTime ∧
        ((hTransitions (hTransition hWorldExample 1 (some 3) 9).1).2.arrs
            (hTransitions (hTransition hWorldExample 1 (some 3) 9).1).1).getLast? = some r ∧
        (hTransition hWorldExample 1 (some 3) 9).1.maps 3 = hWorldExample.maps 3 ∧
        readMd (hMapWrite (hTransition hWorldExample 1 (some 3) 9).1 3 "carrier" "X") r =
          setMeta (hWorldExample.maps 3) "carrier" "X") :=
  ⟨by decide, metadata_not_copied hWorldExample 1 3 9 "carrier" "X" (by decide)⟩

end Statetrooper
